import Mathlib

/-!
A verification development for the cycle-bounded list/string walker and the
attendant system-call primitives of a WAM-style Prolog runtime
(src/src/prolog/machine/system_calls.rs).

The data model (tagged addresses, heap cells, the Brent cycle-search state,
`CycleSearchResult`) and the operations (`brents_alg_step`, `detect_cycles`,
`detect_cycles_with_max`, `skip_max_list`, the attributed-variable queue
primitives, `CheckCutPoint`, `fetch_attribute_goals`) are shallowly embedded
from that file.  Rust loops become fuel-indexed recursions; a `unreachable!()`
becomes the explicit `panicked` outcome; `usize`/`isize` become `Nat`/`Int`
with the `isize` range made explicit; Rust `String` (a UTF-8 byte buffer)
becomes `List Char` with byte offsets and byte lengths computed from
`Char.utf8Size`, so that the byte/scalar-value distinction of the source is
preserved exactly.

Machinery the repository has but that is outside the provided file
(`store`/`deref` of machine_state.rs, `unify`, `gather_attr_vars_created_since`,
`compare_term_test`/`term_dedup`, the stack's choice-point preludes) is
modelled from the specification; each such definition carries a doc comment
saying so.
-/

/-- The constants of the tagged cell language (prolog_parser's
`Constant`), restricted to the variants the analysed operations consume.
Rust's `String(usize, Rc<String>)` pairs a byte offset with a shared UTF-8
buffer; the buffer is modelled as a `List Char` and the offset kept in bytes. -/
inductive Constant where
  | EmptyList : Constant
  | Integer (n : Int) : Constant
  | Usize (n : Nat) : Constant
  | CutPoint (n : Nat) : Constant
  | Atom (s : String) : Constant
  | Char (c : Char) : Constant
  | String (n : Nat) (s : List Char) : Constant
deriving DecidableEq, Repr

/-- Tagged addresses (`Addr` of machine_indices). -/
inductive Addr where
  | HeapCell (h : Nat) : Addr
  | StackCell (fr : Nat) (sc : Nat) : Addr
  | AttrVar (h : Nat) : Addr
  | Lis (l : Nat) : Addr
  | Str (s : Nat) : Addr
  | PStrLocation (h : Nat) (n : Nat) : Addr
  | Con (c : Constant) : Addr
deriving DecidableEq, Repr

/-- The variable references produced by `Addr::as_var` (`Ref`). -/
inductive Ref where
  | HeapCell (h : Nat) : Ref
  | StackCell (fr : Nat) (sc : Nat) : Ref
  | AttrVar (h : Nat) : Ref
deriving DecidableEq, Repr

/-- `Ref::as_addr`. -/
def Ref.as_addr : Ref → Addr
  | .HeapCell h => .HeapCell h
  | .StackCell fr sc => .StackCell fr sc
  | .AttrVar h => .AttrVar h

/-- Heap cells, restricted to the two shapes the walker reads: a cell holding
an address and a partial-string block (`HeapCellValue::PartialString`, whose
text is what `block_as_str` returns). -/
inductive HeapCellValue where
  | Addr (a : Addr) : HeapCellValue
  | PartialString (s : List Char) : HeapCellValue
deriving DecidableEq, Repr

/-- Rust `str::len`: the UTF-8 byte length of a buffer. -/
def utf8Len (s : List Char) : Nat := (s.map Char.utf8Size).sum

/-- Rust `&s[n ..]`: the suffix of a buffer from byte offset `n`.  The code
only slices at offsets that sit on character boundaries (its own invariant);
off-boundary offsets, on which Rust would panic, here simply over-drop. -/
def dropBytes : Nat → List Char → List Char
  | _, [] => []
  | n, c :: cs => if n = 0 then c :: cs else dropBytes (n - c.utf8Size) cs

/-- The outcome language of the walker (`CycleSearchResult`). -/
inductive CycleSearchResult where
  | ProperList (steps : Nat) : CycleSearchResult
  | PartialList (steps : Nat) (r : Ref) : CycleSearchResult
  | CompleteString (n : Nat) (s : List Char) : CycleSearchResult
  | UntouchedString (n : Nat) (s : List Char) : CycleSearchResult
  | UntouchedList (l : Nat) : CycleSearchResult
  | PStrLocation (steps : Nat) (h : Nat) (n : Nat) : CycleSearchResult
  | EmptyList : CycleSearchResult
  | NotList : CycleSearchResult
deriving DecidableEq, Repr

/-- The outcome kinds a caller can distinguish (the constructor of a
`CycleSearchResult`, forgetting its payload). -/
inductive CKind where
  | kProper : CKind
  | kPartialList : CKind
  | kCompleteString : CKind
  | kUntouchedString : CKind
  | kUntouchedList : CKind
  | kPStrLocation : CKind
  | kEmptyList : CKind
  | kNotList : CKind
deriving DecidableEq, Repr

/-- The kind of an outcome. -/
def CycleSearchResult.kindOf : CycleSearchResult → CKind
  | .ProperList _ => .kProper
  | .PartialList _ _ => .kPartialList
  | .CompleteString _ _ => .kCompleteString
  | .UntouchedString _ _ => .kUntouchedString
  | .UntouchedList _ => .kUntouchedList
  | .PStrLocation _ _ _ => .kPStrLocation
  | .EmptyList => .kEmptyList
  | .NotList => .kNotList

/-- `BrentAlgState`: the hare/tortoise state of Brent's cycle search. -/
structure BrentAlgState where
  hare : Addr
  tortoise : Addr
  power : Nat
  steps : Nat
deriving DecidableEq, Repr

/-- `BrentAlgState::new`. -/
def BrentAlgState.new (hare : Addr) : BrentAlgState :=
  { hare := hare, tortoise := hare, power := 2, steps := 0 }

/-- `BrentAlgState::conclude_or_move_tortoise`; `power <<= 1` is `power * 2`. -/
def conclude_or_move_tortoise (st : BrentAlgState) :
    Option CycleSearchResult × BrentAlgState :=
  if st.tortoise = st.hare then
    (some .NotList, st)
  else if st.steps = st.power then
    (none, { st with tortoise := st.hare, power := st.power * 2 })
  else
    (none, st)

/-- `BrentAlgState::step`. -/
def BrentAlgState.step (st : BrentAlgState) (hare : Addr) :
    Option CycleSearchResult × BrentAlgState :=
  conclude_or_move_tortoise { st with hare := hare, steps := st.steps + 1 }

/-- `BrentAlgState::to_result`: classify the raw hare address once a step
budget is exhausted.  `as_var().unwrap()` cannot fail on the three variable
shapes, which are matched directly. -/
def BrentAlgState.to_result (st : BrentAlgState) : CycleSearchResult :=
  match st.hare with
  | .HeapCell h => .PartialList st.steps (.HeapCell h)
  | .StackCell fr sc => .PartialList st.steps (.StackCell fr sc)
  | .AttrVar h => .PartialList st.steps (.AttrVar h)
  | .PStrLocation h n => .PStrLocation st.steps h n
  | .Con .EmptyList => .ProperList st.steps
  | _ => .NotList

/-- The per-query machine state, restricted to the fields the analysed
operations read or write.  `stackVals` (the local stack's cells) and
`stackPreludeB` (the `prelude.b` back link of `stack.index_or_frame`) stand
for stack machinery defined outside the provided file and are modelled from
the specification: a choice point is an integer address and carries its
predecessor's address.  `regs i` is `self[temp_v!(i)]`. -/
structure MachineState where
  heap : List HeapCellValue
  stackVals : Nat → Nat → Addr
  stackPreludeB : Nat → Nat
  b : Nat
  fail : Bool
  doubleQuotesIsAtom : Bool
  attr_var_queue : List Nat
  attribute_goals : List Addr
  regs : Nat → Addr

/-- `HeapCellValue::as_addr(h)` for the embedded cell shapes: an address cell
yields its address, a partial-string block yields the location of its first
byte.  Reading past the heap yields the cell's own address (the source would
panic there; no analysed operation reads past the heap). -/
def MachineState.heapAsAddr (M : MachineState) (h : Nat) : Addr :=
  match M.heap[h]? with
  | some (.Addr a) => a
  | some (.PartialString _) => .PStrLocation h 0
  | none => .HeapCell h

/-- Modelled from the spec (§4.1): `store` of machine_state.rs resolves one
level of indirection: heap and attributed cells through the heap, stack cells
through the local stack; every other address is its own value. -/
def MachineState.store (M : MachineState) (a : Addr) : Addr :=
  match a with
  | .HeapCell h => M.heapAsAddr h
  | .AttrVar h => M.heapAsAddr h
  | .StackCell fr sc => M.stackVals fr sc
  | a => a

/-- `Addr::is_ref`: the three variable shapes. -/
def Addr.isVarRef : Addr → Bool
  | .HeapCell _ => true
  | .StackCell _ _ => true
  | .AttrVar _ => true
  | _ => false

/-- Modelled from the spec (§4.1): `deref` of machine_state.rs follows
variable chains until reaching a non-reference value or a self-bound
(unbound) cell.  The spec guarantees chains on well-formed stores are acyclic
and no longer than the number of live cells, so the recursion is indexed by
fuel and invoked with the heap's length. -/
def MachineState.derefF (M : MachineState) : Nat → Addr → Addr
  | 0, a => a
  | fuel + 1, a =>
    let v := M.store a
    if v.isVarRef ∧ v ≠ a then M.derefF fuel v else a

/-- `self.store(self.deref(addr))`, the idiom every analysed operation uses
to normalise an address. -/
def MachineState.resolve (M : MachineState) (a : Addr) : Addr :=
  M.store (M.derefF M.heap.length a)

/-- The outcome of one call to `brents_alg_step`: a conclusion, a new Brent
state, or a `unreachable!()` panic. -/
inductive StepRes where
  | done (r : CycleSearchResult) (st : BrentAlgState) : StepRes
  | more (st : BrentAlgState) : StepRes
  | panicked : StepRes
deriving DecidableEq, Repr

/-- Wrap the pair returned by `BrentAlgState::step`. -/
def ofStep : Option CycleSearchResult × BrentAlgState → StepRes
  | (some r, st) => .done r st
  | (none, st) => .more st

/-- `MachineState::brents_alg_step`: one step of Brent's algorithm over the
dereferenced hare.  Note the complete-string arm reads `s.chars().next()` —
the first scalar value of the whole buffer, not of the suffix at byte offset
`n` — exactly as the source does, and reports `s.len()` (bytes) when the
buffer is empty.  A string met while double_quotes is atom falls through to
the `NotList` arm. -/
def MachineState.brents_alg_step (M : MachineState) (st : BrentAlgState) : StepRes :=
  match M.resolve st.hare with
  | .Con .EmptyList => .done (.ProperList st.steps) st
  | .HeapCell h => .done (.PartialList st.steps (.HeapCell h)) st
  | .StackCell fr sc => .done (.PartialList st.steps (.StackCell fr sc)) st
  | .AttrVar h => .done (.PartialList st.steps (.AttrVar h)) st
  | .Con (.String n s) =>
    if M.doubleQuotesIsAtom then .done .NotList st
    else
      match s.head? with
      | some c => ofStep (st.step (.Con (.String (n + c.utf8Size) s)))
      | none => .done (.CompleteString (utf8Len s) s) st
  | .PStrLocation h n =>
    match M.heap[h]? with
    | some (.PartialString pstr) =>
      match (dropBytes n pstr).head? with
      | some c => ofStep (st.step (.PStrLocation h (n + c.utf8Size)))
      | none => .panicked
    | _ => .panicked
  | .Lis l => ofStep (st.step (.HeapCell (l + 1)))
  | _ => .done .NotList st

/-- The outcome of a whole walk: the result together with the final Brent
state (the state is the specification's window onto the step count; the
source returns the `CycleSearchResult` alone, i.e. `WalkRes.result`). -/
inductive WalkRes where
  | out (r : CycleSearchResult) (st : BrentAlgState) : WalkRes
  | panicked : WalkRes
  | fuelOut : WalkRes
deriving DecidableEq, Repr

/-- The `CycleSearchResult` a walk returned, if it returned. -/
def WalkRes.result : WalkRes → Option CycleSearchResult
  | .out r _ => some r
  | _ => none

/-- The step counter of the Brent state a walk ended in. -/
def WalkRes.finalSteps : WalkRes → Option Nat
  | .out _ st => some st.steps
  | _ => none

/-- The `loop` of `MachineState::detect_cycles`, fuel-indexed. -/
def brentLoop (M : MachineState) : Nat → BrentAlgState → WalkRes
  | 0, _ => .fuelOut
  | fuel + 1, st =>
    match M.brents_alg_step st with
    | .done r st' => .out r st'
    | .more st' => brentLoop M fuel st'
    | .panicked => .panicked

/-- The `loop` of `MachineState::detect_cycles_with_max`: the budget check
comes before the step, so a run whose budget expires is classified by
`to_result` on the raw hare address. -/
def brentLoopMax (M : MachineState) (max_steps : Nat) : Nat → BrentAlgState → WalkRes
  | 0, _ => .fuelOut
  | fuel + 1, st =>
    if st.steps = max_steps then .out st.to_result st
    else
      match M.brents_alg_step st with
      | .done r st' => .out r st'
      | .more st' => brentLoopMax M max_steps fuel st'
      | .panicked => .panicked

/-- `MachineState::detect_cycles`: the unbounded walk.  Entry arms that
return before the loop carry `BrentAlgState.new` of the resolved address as
their (unused) final state. -/
def MachineState.detect_cycles (M : MachineState) (fuel : Nat) (addr : Addr) : WalkRes :=
  match M.resolve addr with
  | .Lis offset => brentLoop M fuel (BrentAlgState.new (.Lis offset))
  | .Con .EmptyList => .out .EmptyList (BrentAlgState.new (.Con .EmptyList))
  | .PStrLocation h n => brentLoop M fuel (BrentAlgState.new (.PStrLocation h n))
  | .Con (.String n s) =>
    if M.doubleQuotesIsAtom then .out .NotList (BrentAlgState.new (.Con (.String n s)))
    else if n = 0 then
      .out (.CompleteString (utf8Len s) s) (BrentAlgState.new (.Con (.String n s)))
    else
      .out (.CompleteString (utf8Len (dropBytes n s)) (dropBytes n s))
        (BrentAlgState.new (.Con (.String n s)))
  | a => .out .NotList (BrentAlgState.new a)

/-- `MachineState::detect_cycles_with_max`: the budgeted walk.  The guard
order of the source's match arms (`max_steps > 0` first, then the
double-quotes flag, with failed guards falling through to `NotList`) is
reproduced by the nested conditionals. -/
def MachineState.detect_cycles_with_max (M : MachineState) (fuel : Nat)
    (max_steps : Nat) (addr : Addr) : WalkRes :=
  match M.resolve addr with
  | .Lis offset =>
    if 0 < max_steps then brentLoopMax M max_steps fuel (BrentAlgState.new (.Lis offset))
    else .out (.UntouchedList offset) (BrentAlgState.new (.Lis offset))
  | .PStrLocation h n =>
    if 0 < max_steps then brentLoopMax M max_steps fuel (BrentAlgState.new (.PStrLocation h n))
    else .out (.UntouchedList h) (BrentAlgState.new (.PStrLocation h n))
  | .Con .EmptyList => .out .EmptyList (BrentAlgState.new (.Con .EmptyList))
  | .Con (.String n s) =>
    if M.doubleQuotesIsAtom then .out .NotList (BrentAlgState.new (.Con (.String n s)))
    else if 0 < max_steps then
      if utf8Len s - n ≤ max_steps then
        if n = 0 then
          .out (.CompleteString (utf8Len s) s) (BrentAlgState.new (.Con (.String n s)))
        else
          .out (.CompleteString (utf8Len (dropBytes n s)) (dropBytes n s))
            (BrentAlgState.new (.Con (.String n s)))
      else .out (.UntouchedString max_steps s) (BrentAlgState.new (.Con (.String n s)))
    else .out (.UntouchedString n s) (BrentAlgState.new (.Con (.String n s)))
  | a => .out .NotList (BrentAlgState.new a)

/-- `rug::Integer::to_isize`: the value as a machine word when it fits. -/
def toIsize (z : Int) : Option Int :=
  if -(2 ^ 63) ≤ z ∧ z < 2 ^ 63 then some z else none

/-- `max_steps.to_isize().map(|i| i >= -1).unwrap_or(false)`. -/
def skipMaxGate (z : Int) : Bool :=
  match toIsize z with
  | some i => decide (-1 ≤ i)
  | none => false

/-- The structured errors `skip_max_list` constructs (machine_errors.rs is
outside the provided file; the error value is modelled from the spec's
taxonomy (§7) as its kind and culprit, the functor stub dropped). -/
inductive MachineErr where
  | instantiationErr : MachineErr
  | typeErr (culprit : Addr) : MachineErr
deriving DecidableEq, Repr

/-- Bind the heap cell `h` to the value `v` (one step of the spec's §4.2
binding; trail recording is invisible to the analysed claims and omitted). -/
def MachineState.bindHeap (M : MachineState) (h : Nat) (v : Addr) : MachineState :=
  { M with heap := M.heap.set h (.Addr v) }

/-- Bind the stack cell `(fr, sc)` to the value `v`. -/
def MachineState.bindStack (M : MachineState) (fr sc : Nat) (v : Addr) : MachineState :=
  { M with stackVals := fun fr' sc' =>
      if fr' = fr ∧ sc' = sc then v else M.stackVals fr' sc' }

/-- Modelled from the spec (§4.2): `unify` lives in machine_state.rs, outside
the provided file.  Dereference both sides; identical resolved addresses are
a no-op, an unbound side is bound to the other side's value, cons cells are
matched field by field, distinct constants set the failure flag, and the
remaining structural cases (compound/string overlap), which no analysed
claim exercises, also set the failure flag.  Fuel bounds the structural
recursion; `none` is fuel exhaustion, never a result of the source. -/
def unifyF : Nat → MachineState → Addr → Addr → Option MachineState
  | 0, _, _, _ => none
  | fuel + 1, M, a, b =>
    let na := M.resolve a
    let nb := M.resolve b
    if na = nb then some M
    else
      match na, nb with
      | .HeapCell h, _ => some (M.bindHeap h nb)
      | .AttrVar h, _ => some (M.bindHeap h nb)
      | .StackCell fr sc, _ => some (M.bindStack fr sc nb)
      | _, .HeapCell h => some (M.bindHeap h na)
      | _, .AttrVar h => some (M.bindHeap h na)
      | _, .StackCell fr sc => some (M.bindStack fr sc na)
      | .Lis l1, .Lis l2 =>
        match unifyF fuel M (.HeapCell l1) (.HeapCell l2) with
        | none => none
        | some M1 =>
          if M1.fail then some M1
          else unifyF fuel M1 (.HeapCell (l1 + 1)) (.HeapCell (l2 + 1))
      | _, _ => some { M with fail := true }

/-- `MachineState::finalize_skip_max_list`: unify the step count with the
length register (temp 1), and if that did not fail, the reached address with
the residue register (temp 4). -/
def finalize_skip_max_list (fuel : Nat) (M : MachineState) (n : Nat) (addr : Addr) :
    Option MachineState :=
  match unifyF fuel M (.Con (.Integer (Int.ofNat n))) (M.regs 1) with
  | none => none
  | some M1 => if M1.fail then some M1 else unifyF fuel M1 addr (M1.regs 4)

/-- The outcome of `skip_max_list`: `Ok(())` with the updated state, an
`Err` carrying the structured error (the state unchanged, as the source
returns before mutating), a Rust panic reached through the walker, or fuel
exhaustion of the embedding. -/
inductive SkipRes where
  | ok (M : MachineState) : SkipRes
  | err (e : MachineErr) (M : MachineState) : SkipRes
  | panicked : SkipRes
  | fuelOut : SkipRes

/-- The state of a normal (`Ok`) return. -/
def SkipRes.okState : SkipRes → Option MachineState
  | .ok M => some M
  | _ => none

/-- The error of an `Err` return. -/
def SkipRes.errOf : SkipRes → Option MachineErr
  | .err e _ => some e
  | _ => none

/-- Dispatch a walk outcome to `finalize_skip_max_list` exactly as the
`match search_result` of `skip_max_list` does. -/
def skipDispatch (fuel : Nat) (M : MachineState) : WalkRes → SkipRes
  | .panicked => .panicked
  | .fuelOut => .fuelOut
  | .out r _ =>
    let fin := fun n addr =>
      match finalize_skip_max_list fuel M n addr with
      | none => SkipRes.fuelOut
      | some M' => SkipRes.ok M'
    match r with
    | .PStrLocation steps h n => fin steps (.PStrLocation h n)
    | .CompleteString n _ => fin n (.Con .EmptyList)
    | .UntouchedString n s => fin 0 (.Con (.String n s))
    | .UntouchedList l => fin 0 (.Lis l)
    | .EmptyList => fin 0 (.Con .EmptyList)
    | .PartialList n r => fin n r.as_addr
    | .ProperList steps => fin steps (.Con .EmptyList)
    | .NotList => fin 0 (M.regs 3)

/-- `MachineState::skip_max_list` (`'$skip_max_list'/4`): validate the
max-steps register, then walk the list register and unify the outcome into
the length and residue registers.  The arms mirror the source: an integer
passing the `>= -1` gate walks (`-1` and ints beyond `isize` unbounded,
otherwise bounded by the integer); an integer failing the gate sets the
failure flag; an unbound heap or stack cell is an instantiation error; and
everything else is a type error with the offending address. -/
def MachineState.skip_max_list (M : MachineState) (fuel : Nat) : SkipRes :=
  match M.resolve (M.regs 2) with
  | .Con (.Integer ms) =>
    if skipMaxGate ms then
      match M.resolve (M.regs 1) with
      | .Con (.Integer n0) =>
        if n0 = 0 then
          match unifyF fuel M (M.regs 3) (M.regs 4) with
          | none => .fuelOut
          | some M' => .ok M'
        else
          skipDispatch fuel M
            (match toIsize ms with
             | some i =>
               if i = -1 then M.detect_cycles fuel (M.regs 3)
               else M.detect_cycles_with_max fuel i.toNat (M.regs 3)
             | none => M.detect_cycles fuel (M.regs 3))
      | _ =>
        skipDispatch fuel M
          (match toIsize ms with
           | some i =>
             if i = -1 then M.detect_cycles fuel (M.regs 3)
             else M.detect_cycles_with_max fuel i.toNat (M.regs 3)
           | none => M.detect_cycles fuel (M.regs 3))
    else .ok { M with fail := true }
  | .HeapCell _ => .err .instantiationErr M
  | .StackCell _ _ => .err .instantiationErr M
  | a => .err (.typeErr a) M

/-- The addresses caught by the final (`addr =>`) arm of `skip_max_list`'s
match on the max-steps register: everything that is neither an integer
constant nor an unbound heap/stack cell — notably including attributed
variables. -/
def skipMaxCatchArm : Addr → Bool
  | .Con (.Integer _) => false
  | .HeapCell _ => false
  | .StackCell _ _ => false
  | _ => true

/-- `SystemClauseType::EnqueueAttributedVar`: push the heap location of a
dereferenced attributed variable; every other address is left entirely
alone (no flag, no error, no queue change). -/
def MachineState.enqueueAttributedVar (M : MachineState) (a : Addr) : MachineState :=
  match M.resolve a with
  | .AttrVar h => { M with attr_var_queue := M.attr_var_queue ++ [h] }
  | _ => M

/-- `SystemClauseType::GetAttrVarQueueDelimiter`: the checkpoint value the
operation unifies into its register — the queue's current length. -/
def MachineState.attrVarQueueDelimiter (M : MachineState) : Nat :=
  M.attr_var_queue.length

/-- Modelled from the spec (§4.5): `gather_attr_vars_created_since` lives in
attributed_variables.rs, outside the provided file; it yields every
attributed-variable address enqueued since the checkpoint, in creation
order.  `GetAttrVarQueueBeyond` unifies this list into its second register. -/
def MachineState.gather_attr_vars_created_since (M : MachineState) (b : Nat) : List Addr :=
  (M.attr_var_queue.drop b).map .AttrVar

/-- `SystemClauseType::CheckCutPoint`: with the register resolved to a saved
barrier (`Usize` or `CutPoint`), follow the current choice point's
predecessor link twice and set the failure flag exactly when the choice
point reached is more recent than the saved barrier; a register that is
neither barrier constant also fails. -/
def MachineState.checkCutPoint (M : MachineState) : MachineState :=
  match M.resolve (M.regs 1) with
  | .Con (.Usize old_b) =>
    let prev_b := M.stackPreludeB (M.stackPreludeB M.b)
    if old_b < prev_b then { M with fail := true } else M
  | .Con (.CutPoint old_b) =>
    let prev_b := M.stackPreludeB (M.stackPreludeB M.b)
    if old_b < prev_b then { M with fail := true } else M
  | _ => { M with fail := true }

/-- Modelled from the spec (§4.5): `Vec::sort_unstable_by` is the standard
library's comparator sort; any comparator sort realises its contract (a
permutation in which no element compares greater than a later one),
embedded here as insertion sort over the comparator's not-greater
relation. -/
def sortByCmp (cmp : Addr → Addr → Ordering) (l : List Addr) : List Addr :=
  l.insertionSort (fun a b => cmp a b ≠ .gt)

/-- Remove every later element the comparator judges equal to the last kept
element `x`. -/
def dedupFrom (cmp : Addr → Addr → Ordering) (x : Addr) : List Addr → List Addr
  | [] => []
  | y :: ys => if cmp x y = .eq then dedupFrom cmp x ys else y :: dedupFrom cmp y ys

/-- Modelled from the spec (§4.5): `term_dedup` (outside the provided file)
removes exact duplicates from the sorted goal list — consecutive elements
the term comparator judges equal, keeping the first of each run. -/
def term_dedup (cmp : Addr → Addr → Ordering) : List Addr → List Addr
  | [] => []
  | x :: xs => x :: dedupFrom cmp x xs

/-- The list `MachineState::fetch_attribute_goals` builds and unifies into
its register: the accumulated goals sorted by `compare_term_test` (the
caller-supplied total term order, outside the provided file and abstracted
as `cmp`) and then deduplicated. -/
def fetch_attribute_goals_list (cmp : Addr → Addr → Ordering)
    (attr_goals : List Addr) : List Addr :=
  term_dedup cmp (sortByCmp cmp attr_goals)

/-- A dereferenced address heads a proper nil-terminated list of `n` cons
cells: resolving it yields a cons cell whose tail cell heads a proper list
of `n - 1` cons cells, down to the empty-list constant. -/
inductive ProperListAt (M : MachineState) : Addr → Nat → Prop where
  | nil (a : Addr) (h : M.resolve a = .Con .EmptyList) : ProperListAt M a 0
  | cons (a : Addr) (l : Nat) (n : Nat) (h : M.resolve a = .Lis l)
      (tl : ProperListAt M (.HeapCell (l + 1)) n) : ProperListAt M a (n + 1)

theorem resolve_Lis (M : MachineState) (l : Nat) : M.resolve (.Lis l) = .Lis l := by
  unfold MachineState.resolve
  cases hl : M.heap.length with
  | zero => simp [MachineState.derefF, MachineState.store]
  | succ k => simp [MachineState.derefF, MachineState.store, Addr.isVarRef]

theorem properListAt_unique {M : MachineState} {a : Addr} {m n : Nat}
    (h1 : ProperListAt M a m) (h2 : ProperListAt M a n) : m = n := by
  induction h1 generalizing n with
  | nil a ha =>
    cases h2 with
    | nil => rfl
    | cons _ l _ hl _ => rw [ha] at hl; cases hl
  | cons a l k ha _ ih =>
    cases h2 with
    | nil _ hb => rw [ha] at hb; cases hb
    | cons _ l' k' hl' tl' =>
      rw [ha] at hl'
      cases hl'
      rw [ih tl']

theorem brentLoop_proper (M : MachineState) :
    ∀ (k : Nat) (st : BrentAlgState) (j fuel : Nat),
      ProperListAt M st.hare k → ProperListAt M st.tortoise j → k ≤ j →
      k + 1 ≤ fuel →
      (brentLoop M fuel st).result = some (.ProperList (st.steps + k)) := by
  intro k
  induction k with
  | zero =>
    intro st j fuel hhare htort hkj hfuel
    cases fuel with
    | zero => omega
    | succ f =>
      cases hhare with
      | nil _ hres =>
        simp [brentLoop, MachineState.brents_alg_step, hres, WalkRes.result]
  | succ k ih =>
    intro st j fuel hhare htort hkj hfuel
    cases fuel with
    | zero => omega
    | succ f =>
      cases hhare with
      | cons _ l _ hres htl =>
        have hne : st.tortoise ≠ Addr.HeapCell (l + 1) := by
          intro he
          have : j = k := properListAt_unique (he ▸ htort) htl
          omega
        simp only [brentLoop, MachineState.brents_alg_step, hres]
        simp only [BrentAlgState.step, conclude_or_move_tortoise]
        by_cases hpow : st.steps + 1 = st.power
        · simp only [if_neg hne, if_pos hpow, ofStep]
          have := ih { hare := Addr.HeapCell (l + 1), tortoise := Addr.HeapCell (l + 1),
                       power := st.power * 2, steps := st.steps + 1 } k f htl htl
                     (Nat.le_refl k) (by omega)
          simpa [Nat.add_assoc, Nat.add_comm, Nat.add_left_comm] using this
        · simp only [if_neg hne, if_neg hpow, ofStep]
          have := ih { hare := Addr.HeapCell (l + 1), tortoise := st.tortoise,
                       power := st.power, steps := st.steps + 1 } j f htl htort
                     (by omega) (by omega)
          simpa [Nat.add_assoc, Nat.add_comm, Nat.add_left_comm] using this


theorem brentLoopMax_proper (M : MachineState) (m : Nat) :
    ∀ (k : Nat) (st : BrentAlgState) (j fuel : Nat),
      ProperListAt M st.hare k → ProperListAt M st.tortoise j → k ≤ j →
      st.steps + k < m → k + 1 ≤ fuel →
      (brentLoopMax M m fuel st).result = some (.ProperList (st.steps + k)) := by
  intro k
  induction k with
  | zero =>
    intro st j fuel hhare htort hkj hm hfuel
    cases fuel with
    | zero => omega
    | succ f =>
      cases hhare with
      | nil _ hres =>
        have hsm : st.steps ≠ m := by omega
        simp [brentLoopMax, hsm, MachineState.brents_alg_step, hres, WalkRes.result]
  | succ k ih =>
    intro st j fuel hhare htort hkj hm hfuel
    cases fuel with
    | zero => omega
    | succ f =>
      cases hhare with
      | cons _ l _ hres htl =>
        have hne : st.tortoise ≠ Addr.HeapCell (l + 1) := by
          intro he
          have : j = k := properListAt_unique (he ▸ htort) htl
          omega
        have hsm : st.steps ≠ m := by omega
        have hm2 : st.steps + 1 + k < m := by omega
        have hf2 : k + 1 ≤ f := by omega
        simp only [brentLoopMax, if_neg hsm, MachineState.brents_alg_step, hres]
        simp only [BrentAlgState.step, conclude_or_move_tortoise]
        by_cases hpow : st.steps + 1 = st.power
        · simp only [if_neg hne, if_pos hpow, ofStep]
          have := ih { hare := Addr.HeapCell (l + 1), tortoise := Addr.HeapCell (l + 1),
                       power := st.power * 2, steps := st.steps + 1 } k f htl htl
                     (Nat.le_refl k) hm2 hf2
          simpa [Nat.add_assoc, Nat.add_comm, Nat.add_left_comm] using this
        · simp only [if_neg hne, if_neg hpow, ofStep]
          have := ih { hare := Addr.HeapCell (l + 1), tortoise := st.tortoise,
                       power := st.power, steps := st.steps + 1 } j f htl htort
                     (by omega) hm2 hf2
          simpa [Nat.add_assoc, Nat.add_comm, Nat.add_left_comm] using this

theorem brentLoopMax_exhaust (M : MachineState) (m : Nat) :
    ∀ (d k : Nat) (st : BrentAlgState) (j fuel : Nat),
      ProperListAt M st.hare k → ProperListAt M st.tortoise j → k ≤ j →
      1 ≤ d → d ≤ k → m = st.steps + d → d + 1 ≤ fuel →
      ∃ hh, (brentLoopMax M m fuel st).result = some (.PartialList m (.HeapCell hh)) ∧
        ProperListAt M (.HeapCell hh) (k - d) := by
  intro d
  induction d with
  | zero => intro _ _ _ _ _ _ _ h1 _ _ _; omega
  | succ d ih =>
    intro k st j fuel hhare htort hkj _ hdk hm hfuel
    cases fuel with
    | zero => omega
    | succ f =>
      obtain ⟨k', rfl⟩ : ∃ k', k = k' + 1 := ⟨k - 1, by omega⟩
      cases hhare with
      | cons _ l _ hres htl =>
        have hne : st.tortoise ≠ Addr.HeapCell (l + 1) := by
          intro he
          have : j = k' := properListAt_unique (he ▸ htort) htl
          omega
        have hsm : st.steps ≠ m := by omega
        simp only [brentLoopMax, if_neg hsm, MachineState.brents_alg_step, hres]
        simp only [BrentAlgState.step, conclude_or_move_tortoise]
        cases d with
        | zero =>
          -- the budget expires on the state this step produces
          refine ⟨l + 1, ?_, by simpa using htl⟩
          have hstop : st.steps + 1 = m := by omega
          by_cases hpow : st.steps + 1 = st.power
          · simp only [if_neg hne, if_pos hpow, ofStep]
            cases f with
            | zero => omega
            | succ f' =>
              simp [brentLoopMax, hstop, BrentAlgState.to_result, WalkRes.result]
          · simp only [if_neg hne, if_neg hpow, ofStep]
            cases f with
            | zero => omega
            | succ f' =>
              simp [brentLoopMax, hstop, BrentAlgState.to_result, WalkRes.result]
        | succ d' =>
          have hm2 : m = st.steps + 1 + (d' + 1) := by omega
          have hf2 : d' + 1 + 1 ≤ f := by omega
          by_cases hpow : st.steps + 1 = st.power
          · simp only [if_neg hne, if_pos hpow, ofStep]
            obtain ⟨hh, hres', hpl⟩ :=
              ih k' { hare := Addr.HeapCell (l + 1), tortoise := Addr.HeapCell (l + 1),
                      power := st.power * 2, steps := st.steps + 1 } k' f htl htl
                 (Nat.le_refl k') (by omega) (by omega) hm2 hf2
            exact ⟨hh, hres', by simpa [Nat.sub_sub] using hpl⟩
          · simp only [if_neg hne, if_neg hpow, ofStep]
            obtain ⟨hh, hres', hpl⟩ :=
              ih k' { hare := Addr.HeapCell (l + 1), tortoise := st.tortoise,
                      power := st.power, steps := st.steps + 1 } j f htl htort
                 (by omega) (by omega) (by omega) hm2 hf2
            exact ⟨hh, hres', by simpa [Nat.sub_sub] using hpl⟩

theorem properListAt_of_lis {M : MachineState} {l k : Nat}
    (htl : ProperListAt M (.HeapCell (l + 1)) k) : ProperListAt M (.Lis l) (k + 1) :=
  .cons _ l k (resolve_Lis M l) htl

theorem detect_cycles_proper (M : MachineState) (a : Addr) (N fuel : Nat)
    (h : ProperListAt M a N) (h1 : 1 ≤ N) (hf : N + 1 ≤ fuel) :
    (M.detect_cycles fuel a).result = some (.ProperList N) := by
  obtain ⟨k, rfl⟩ : ∃ k, N = k + 1 := ⟨N - 1, by omega⟩
  cases h with
  | cons _ l _ hres htl =>
    have hlis := properListAt_of_lis htl
    simp only [MachineState.detect_cycles, hres]
    have := brentLoop_proper M (k + 1) (BrentAlgState.new (.Lis l)) (k + 1) fuel
      hlis hlis (Nat.le_refl _) hf
    simpa [BrentAlgState.new] using this

theorem detect_cycles_with_max_proper (M : MachineState) (a : Addr) (N m fuel : Nat)
    (h : ProperListAt M a N) (h1 : 1 ≤ N) (hm : N < m) (hf : N + 1 ≤ fuel) :
    (M.detect_cycles_with_max fuel m a).result = some (.ProperList N) := by
  obtain ⟨k, rfl⟩ : ∃ k, N = k + 1 := ⟨N - 1, by omega⟩
  cases h with
  | cons _ l _ hres htl =>
    have hlis := properListAt_of_lis htl
    have hmp : 0 < m := by omega
    simp only [MachineState.detect_cycles_with_max, hres, if_pos hmp]
    have := brentLoopMax_proper M m (k + 1) (BrentAlgState.new (.Lis l)) (k + 1) fuel
      hlis hlis (Nat.le_refl _) (by simpa [BrentAlgState.new] using hm) hf
    simpa [BrentAlgState.new] using this

theorem detect_cycles_with_max_exhaust (M : MachineState) (a : Addr) (N m fuel : Nat)
    (h : ProperListAt M a N) (h1 : 1 ≤ m) (hm : m ≤ N) (hf : m + 1 ≤ fuel) :
    ∃ hh, (M.detect_cycles_with_max fuel m a).result =
        some (.PartialList m (.HeapCell hh)) ∧
      ProperListAt M (.HeapCell hh) (N - m) := by
  obtain ⟨k, rfl⟩ : ∃ k, N = k + 1 := ⟨N - 1, by omega⟩
  cases h with
  | cons _ l _ hres htl =>
    have hlis := properListAt_of_lis htl
    have hmp : 0 < m := by omega
    simp only [MachineState.detect_cycles_with_max, hres, if_pos hmp]
    have := brentLoopMax_exhaust M m m (k + 1) (BrentAlgState.new (.Lis l)) (k + 1) fuel
      hlis hlis (Nat.le_refl _) h1 hm (by simp [BrentAlgState.new]) hf
    simpa [BrentAlgState.new] using this

/-- A power of two (the values Brent's doubling threshold ranges over). -/
def IsPow2 (n : Nat) : Prop := ∃ e, n = 2 ^ e

theorem isPow2_two : IsPow2 2 := ⟨1, rfl⟩

theorem isPow2_double {n : Nat} (h : IsPow2 n) : IsPow2 (n * 2) := by
  obtain ⟨e, rfl⟩ := h
  exact ⟨e + 1, by ring⟩

theorem pow2_le_of_lt_twice {s t : Nat} (hs : IsPow2 s) (ht : IsPow2 t)
    (h : s < 2 * t) : s ≤ t := by
  obtain ⟨a, rfl⟩ := hs
  obtain ⟨b, rfl⟩ := ht
  have hab : a < b + 1 := by
    have h2 : (2 : Nat) ^ a < 2 ^ (b + 1) := by
      calc (2 : Nat) ^ a < 2 * 2 ^ b := h
        _ = 2 ^ (b + 1) := by ring
    exact (Nat.pow_lt_pow_iff_right (by omega)).mp h2
  exact Nat.pow_le_pow_right (by omega) (by omega)

theorem brentLoop_cyclic (M : MachineState) (pos : Nat → Addr) (l : Nat → Nat)
    (mu lam p : Nat)
    (h1 : ∀ i, M.resolve (pos i) = .Lis (l i))
    (h2 : ∀ i, pos (i + 1) = .HeapCell (l i + 1))
    (h3 : ∀ i, mu ≤ i → pos (i + lam) = pos i)
    (hlam : 1 ≤ lam) (hppow : IsPow2 p) (hp2 : 2 ≤ p) (hmu : mu ≤ p) (hlp : lam ≤ p) :
    ∀ (fuel : Nat) (st : BrentAlgState) (t : Nat),
      st.hare = pos st.steps → st.tortoise = pos t → t ≤ st.steps →
      st.steps < st.power →
      ((st.power = 2 ∧ t = 0) ∨ (st.power = 2 * t ∧ IsPow2 t ∧ 2 ≤ t)) →
      st.steps < p + lam → p + lam + 1 ≤ fuel + st.steps →
      ∃ st', brentLoop M fuel st = .out .NotList st' ∧ st'.steps ≤ p + lam := by
  intro fuel
  induction fuel with
  | zero =>
    intro st t _ _ _ _ _ hbound hfuel
    omega
  | succ f ih =>
    intro st t hhare htort htle hsp hpw hbound hfuel
    have hpowIs : IsPow2 st.power := by
      rcases hpw with ⟨hpw2, _⟩ | ⟨hpt, htpow, _⟩
      · rw [hpw2]; exact isPow2_two
      · rw [hpt]; obtain ⟨e, rfl⟩ := htpow; exact ⟨e + 1, by ring⟩
    have hpge2 : 2 ≤ st.power := by
      rcases hpw with ⟨hpw2, _⟩ | ⟨hpt, _, ht2⟩ <;> omega
    have hres : M.resolve st.hare = .Lis (l st.steps) := by rw [hhare]; exact h1 st.steps
    simp only [brentLoop, MachineState.brents_alg_step, hres]
    rw [← h2 st.steps]
    simp only [BrentAlgState.step, conclude_or_move_tortoise]
    by_cases heq : st.tortoise = pos (st.steps + 1)
    · -- the tortoise equals the advanced hare: the cycle is detected now
      simp only [if_pos heq, ofStep]
      exact ⟨_, rfl, show st.steps + 1 ≤ p + lam by omega⟩
    · -- no detection yet: first show the budget cannot already be spent
      have hlt : st.steps + 1 < p + lam := by
        rcases Nat.lt_or_ge (st.steps + 1) (p + lam) with h | h
        · exact h
        · exfalso
          have hstop : st.steps + 1 = p + lam := by omega
          have hpow2t : st.power = 2 * t ∧ IsPow2 t ∧ 2 ≤ t := by
            rcases hpw with ⟨hpw2, _⟩ | h
            · omega
            · exact h
          obtain ⟨hpt, htpow, ht2⟩ := hpow2t
          have htp : t = p := by
            have hple : p ≤ t := pow2_le_of_lt_twice hppow htpow (by omega)
            have htle' : t ≤ p := pow2_le_of_lt_twice htpow hppow (by omega)
            omega
          apply heq
          rw [htort, htp, show st.steps + 1 = p + lam from hstop, h3 p hmu]
      by_cases hpow : st.steps + 1 = st.power
      · simp only [if_neg heq, if_pos hpow, ofStep]
        have hE : IsPow2 (st.steps + 1) := hpow ▸ hpowIs
        obtain ⟨st', hst', hle⟩ :=
          ih { hare := pos (st.steps + 1), tortoise := pos (st.steps + 1),
               power := st.power * 2, steps := st.steps + 1 } (st.steps + 1)
            rfl rfl
            (show st.steps + 1 ≤ st.steps + 1 from Nat.le_refl _)
            (show st.steps + 1 < st.power * 2 by omega)
            (Or.inr ⟨show st.power * 2 = 2 * (st.steps + 1) by omega, hE,
              show 2 ≤ st.steps + 1 by omega⟩)
            (show st.steps + 1 < p + lam from hlt)
            (show p + lam + 1 ≤ f + (st.steps + 1) by omega)
        exact ⟨st', hst', hle⟩
      · simp only [if_neg heq, if_neg hpow, ofStep]
        obtain ⟨st', hst', hle⟩ :=
          ih { hare := pos (st.steps + 1), tortoise := st.tortoise,
               power := st.power, steps := st.steps + 1 } t
            rfl htort
            (show t ≤ st.steps + 1 by omega)
            (show st.steps + 1 < st.power by omega)
            (by
              rcases hpw with ⟨hpw2, ht0⟩ | ⟨hpt, htpow, ht2⟩
              · exact Or.inl ⟨hpw2, ht0⟩
              · exact Or.inr ⟨hpt, htpow, ht2⟩)
            (show st.steps + 1 < p + lam from hlt)
            (show p + lam + 1 ≤ f + (st.steps + 1) by omega)
        exact ⟨st', hst', hle⟩

theorem detect_cycles_cyclic (M : MachineState) (pos : Nat → Addr) (l : Nat → Nat)
    (mu lam p : Nat) (a : Addr) (fuel : Nat)
    (h0 : pos 0 = .Lis (l 0))
    (h1 : ∀ i, M.resolve (pos i) = .Lis (l i))
    (h2 : ∀ i, pos (i + 1) = .HeapCell (l i + 1))
    (h3 : ∀ i, mu ≤ i → pos (i + lam) = pos i)
    (hlam : 1 ≤ lam) (hppow : IsPow2 p) (hp2 : 2 ≤ p) (hmu : mu ≤ p) (hlp : lam ≤ p)
    (ha : M.resolve a = pos 0) (hfuel : p + lam + 1 ≤ fuel) :
    ∃ st', M.detect_cycles fuel a = .out .NotList st' ∧ st'.steps ≤ p + lam := by
  have hres : M.resolve a = .Lis (l 0) := ha.trans h0
  simp only [MachineState.detect_cycles, hres]
  exact brentLoop_cyclic M pos l mu lam p h1 h2 h3 hlam hppow hp2 hmu hlp
    fuel (BrentAlgState.new (.Lis (l 0))) 0
    (show Addr.Lis (l 0) = pos 0 from h0.symm)
    (show Addr.Lis (l 0) = pos 0 from h0.symm)
    (Nat.le_refl 0) (show 0 < 2 by omega) (Or.inl ⟨rfl, rfl⟩)
    (show 0 < p + lam by omega) (show p + lam + 1 ≤ fuel + 0 by omega)

/-- A machine with every optional part empty, used as the base of the
concrete test stores. -/
def baseMachine : MachineState where
  heap := []
  stackVals := fun _ _ => .Con .EmptyList
  stackPreludeB := fun _ => 0
  b := 0
  fail := false
  doubleQuotesIsAtom := false
  attr_var_queue := []
  attribute_goals := []
  regs := fun _ => .Con .EmptyList

/-- The proper one-element list `[1]`: a cons cell at 0 (head cell 0, tail
cell 1 bound to the empty list). -/
def Mlist1 : MachineState :=
  { baseMachine with heap := [.Addr (.Con (.Integer 1)), .Addr (.Con .EmptyList)] }

/-- The proper two-element list `[1,2]`. -/
def Mlist2 : MachineState :=
  { baseMachine with
    heap := [.Addr (.Con (.Integer 1)), .Addr (.Lis 2),
             .Addr (.Con (.Integer 2)), .Addr (.Con .EmptyList)] }

/-- A one-cell cyclic list: the tail cell of the cons at 0 points back to
the cons itself. -/
def Mloop1 : MachineState :=
  { baseMachine with heap := [.Addr (.Con (.Integer 1)), .Addr (.Lis 0)] }

/-- The position sequence of the walk over `Mloop1` from `Lis 0`: the entry
cons address, then forever its own tail cell. -/
def posLoop1 : Nat → Addr
  | 0 => .Lis 0
  | _ + 1 => .HeapCell 1

/-- C1, amended.  For every machine: (a) `detect_cycles` on a dereferenced
address heading a proper nil-terminated list of `N ≥ 1` cons cells reports
`ProperList N` — the step count is exactly `N` (an empty list reports the
distinct `EmptyList` outcome, so `N = 0` is excluded); (b) for
`detect_cycles_with_max` the budget must exceed `N` — with budget at least
`N + 1` (not `N`, as claimed) it reports `ProperList N`; and (c) on every
cyclic list (positions `pos i`, each resolving to a cons, eventually
periodic with period `lam ≥ 1` from index `mu`) the walk terminates with the
`NotList` outcome after at most `p + lam` steps for any power of two
`p ≥ max mu lam 2` — an `O(N)` bound, `N` the number of distinct cells. -/
theorem c1_walker_classification (M : MachineState) :
    (∀ a N fuel, ProperListAt M a N → 1 ≤ N → N + 1 ≤ fuel →
      (M.detect_cycles fuel a).result = some (.ProperList N)) ∧
    (∀ a N m fuel, ProperListAt M a N → 1 ≤ N → N < m → N + 1 ≤ fuel →
      (M.detect_cycles_with_max fuel m a).result = some (.ProperList N)) ∧
    (∀ (pos : Nat → Addr) (l : Nat → Nat) (mu lam p : Nat) (a : Addr) (fuel : Nat),
      pos 0 = .Lis (l 0) →
      (∀ i, M.resolve (pos i) = .Lis (l i)) →
      (∀ i, pos (i + 1) = .HeapCell (l i + 1)) →
      (∀ i, mu ≤ i → pos (i + lam) = pos i) →
      1 ≤ lam → IsPow2 p → 2 ≤ p → mu ≤ p → lam ≤ p →
      M.resolve a = pos 0 → p + lam + 1 ≤ fuel →
      ∃ st', M.detect_cycles fuel a = .out .NotList st' ∧ st'.steps ≤ p + lam) := by
  refine ⟨?_, ?_, ?_⟩
  · intro a N fuel h h1 hf
    exact detect_cycles_proper M a N fuel h h1 hf
  · intro a N m fuel h h1 hm hf
    exact detect_cycles_with_max_proper M a N m fuel h h1 hm hf
  · intro pos l mu lam p a fuel h0 h1 h2 h3 hlam hppow hp2 hmu hlp ha hfuel
    exact detect_cycles_cyclic M pos l mu lam p a fuel h0 h1 h2 h3 hlam hppow hp2 hmu hlp
      ha hfuel

/-- C1, counterexample to the claim as stated: on the proper one-cell list
`[1]`, `detect_cycles_with_max` with budget exactly `N = 1` (which is
"at least N") reports a partial-list outcome at the final tail cell, not
`ProperList 1`. -/
theorem c1_budget_exactly_n_counterexample :
    ProperListAt Mlist1 (.Lis 0) 1 ∧
    (Mlist1.detect_cycles_with_max 5 1 (.Lis 0)).result =
      some (.PartialList 1 (.HeapCell 1)) ∧
    (Mlist1.detect_cycles_with_max 5 1 (.Lis 0)).result ≠ some (.ProperList 1) := by
  refine ⟨?_, by decide, by decide⟩
  exact ProperListAt.cons _ 0 0 (by decide) (ProperListAt.nil _ (by decide))

/-- Witness for C1: the amended claim applied to the one-cell proper list
`[1]` (parts (a) and (b)) and to the one-cell cyclic list (part (c), with
`mu = lam = 1`, `p = 2`: detection within 3 steps). -/
theorem c1_walker_classification_witness :
    (Mlist1.detect_cycles 2 (.Lis 0)).result = some (.ProperList 1) ∧
    (Mlist1.detect_cycles_with_max 2 2 (.Lis 0)).result = some (.ProperList 1) ∧
    (∃ st', Mloop1.detect_cycles 4 (.Lis 0) = .out .NotList st' ∧ st'.steps ≤ 3) := by
  have hpl : ProperListAt Mlist1 (.Lis 0) 1 :=
    ProperListAt.cons _ 0 0 (by decide) (ProperListAt.nil _ (by decide))
  refine ⟨(c1_walker_classification Mlist1).1 (.Lis 0) 1 2 hpl (by decide) (by decide),
    (c1_walker_classification Mlist1).2.1 (.Lis 0) 1 2 2 hpl (by decide) (by decide)
      (by decide), ?_⟩
  exact (c1_walker_classification Mloop1).2.2 posLoop1 (fun _ => 0) 1 1 2 (.Lis 0) 4
    (by decide)
    (by
      intro i
      cases i with
      | zero => decide
      | succ j => exact (by decide : Mloop1.resolve (.HeapCell 1) = .Lis 0))
    (by intro i; rfl)
    (by intro i hi; cases i with | zero => omega | succ j => rfl)
    (by decide) ⟨1, rfl⟩ (by decide) (by decide) (by decide) (by decide) (by decide)

/-- The three-cell cyclic list of the spec's scenario: cons cells at 0, 2
and 4; the tail cell of the third points back to the first. -/
def Mcyc3 : MachineState :=
  { baseMachine with
    heap := [.Addr (.Con (.Integer 1)), .Addr (.Lis 2),
             .Addr (.Con (.Integer 2)), .Addr (.Lis 4),
             .Addr (.Con (.Integer 3)), .Addr (.Lis 0)] }

/-- C4, amended.  On the 3-cell cyclic list whose tail points back to its
head, `detect_cycles` reports the cycle (`NotList`) outcome and the step
count at detection is exactly 7, not at most 6: the entry cons address
shifts the position sequence (`mu = 1`, `lam = 3`), so Brent's schedule
first compares in-cycle positions a multiple of 3 apart in the window after
the tortoise move at step 4, detecting at step `4 + 3 = 7`. -/
theorem c4_three_cycle_detection :
    (Mcyc3.detect_cycles 16 (.Lis 0)).result = some .NotList ∧
    (Mcyc3.detect_cycles 16 (.Lis 0)).finalSteps = some 7 := by
  decide

/-- C4, counterexample to the claim as stated: the walk over the 3-cell
cycle concludes `NotList` with step counter 7, and `7 ≤ 6` is false. -/
theorem c4_steps_counterexample :
    (Mcyc3.detect_cycles 16 (.Lis 0)).finalSteps = some 7 ∧ ¬(7 ≤ 6) := by
  decide

/-- C5, amended.  Budget-splitting composes on proper lists as long as the
total budget does not exceed the list's length: for a proper list of `N`
cons cells and any split `1 ≤ B < total ≤ N`, the first walk reports the
partial outcome after `B` steps at a tail cell, resuming from that cell
with budget `total - B` again reports the partial outcome, and the single
walk with budget `total` reports the partial outcome too — the same final
outcome kind.  (The unrestricted claim fails: the counterexample resumes
past the end of a list, where the single walk's `ProperList` outcome turns
into the resumed walk's `EmptyList` outcome, and on cyclic structures the
reset Brent state can likewise change the classification.) -/
theorem c5_split_walk_proper (M : MachineState) (a : Addr) (N B total : Nat)
    (h : ProperListAt M a N) (hB : 1 ≤ B) (hBt : B < total) (htN : total ≤ N) :
    ∃ hh hh2 hh3,
      (M.detect_cycles_with_max (B + 1) B a).result =
        some (.PartialList B (.HeapCell hh)) ∧
      (M.detect_cycles_with_max (total - B + 1) (total - B) (.HeapCell hh)).result =
        some (.PartialList (total - B) (.HeapCell hh2)) ∧
      (M.detect_cycles_with_max (total + 1) total a).result =
        some (.PartialList total (.HeapCell hh3)) ∧
      ((M.detect_cycles_with_max (total - B + 1) (total - B) (.HeapCell hh)).result.map
          CycleSearchResult.kindOf =
        (M.detect_cycles_with_max (total + 1) total a).result.map
          CycleSearchResult.kindOf) := by
  obtain ⟨hh, hfirst, hrest⟩ :=
    detect_cycles_with_max_exhaust M a N B (B + 1) h hB (by omega) (Nat.le_refl _)
  obtain ⟨hh2, hsecond, _⟩ :=
    detect_cycles_with_max_exhaust M (.HeapCell hh) (N - B) (total - B) (total - B + 1)
      hrest (by omega) (by omega) (Nat.le_refl _)
  obtain ⟨hh3, hsingle, _⟩ :=
    detect_cycles_with_max_exhaust M a N total (total + 1) h (by omega) htN (Nat.le_refl _)
  refine ⟨hh, hh2, hh3, hfirst, hsecond, hsingle, ?_⟩
  rw [hsecond, hsingle]
  rfl

/-- Witness for C5: the amended claim applied to the two-element proper
list `[1,2]` with `B = 1`, `total = 2`. -/
theorem c5_split_walk_proper_witness :
    ∃ hh hh2 hh3,
      (Mlist2.detect_cycles_with_max 2 1 (.Lis 0)).result =
        some (.PartialList 1 (.HeapCell hh)) ∧
      (Mlist2.detect_cycles_with_max 2 1 (.HeapCell hh)).result =
        some (.PartialList 1 (.HeapCell hh2)) ∧
      (Mlist2.detect_cycles_with_max 3 2 (.Lis 0)).result =
        some (.PartialList 2 (.HeapCell hh3)) ∧
      ((Mlist2.detect_cycles_with_max 2 1 (.HeapCell hh)).result.map
          CycleSearchResult.kindOf =
        (Mlist2.detect_cycles_with_max 3 2 (.Lis 0)).result.map
          CycleSearchResult.kindOf) := by
  have hpl : ProperListAt Mlist2 (.Lis 0) 2 :=
    ProperListAt.cons _ 0 1 (by decide)
      (ProperListAt.cons _ 2 0 (by decide) (ProperListAt.nil _ (by decide)))
  exact c5_split_walk_proper Mlist2 (.Lis 0) 2 1 2 hpl (by decide) (by decide) (by decide)

/-- C5, counterexample to the claim as stated: on the proper list `[1]`
with `B = 1`, `total = 2`, the single walk reports `ProperList` while the
walk resumed from the first walk's reported partial position reports
`EmptyList` — different outcome kinds. -/
theorem c5_split_counterexample :
    (Mlist1.detect_cycles_with_max 5 1 (.Lis 0)).result =
      some (.PartialList 1 (.HeapCell 1)) ∧
    (Mlist1.detect_cycles_with_max 5 1 (.HeapCell 1)).result = some .EmptyList ∧
    (Mlist1.detect_cycles_with_max 5 2 (.Lis 0)).result = some (.ProperList 1) ∧
    CycleSearchResult.EmptyList.kindOf ≠ (CycleSearchResult.ProperList 1).kindOf := by
  decide

/-- A machine whose heap holds a single partial-string block "ab". -/
def MpstrW : MachineState :=
  { baseMachine with heap := [.PartialString ['a', 'b']] }

/-- C2, amended.  (i) In the partial-string arm the walker advances by
exactly one scalar value: with the hare at byte offset `n` of block `s` and
`c` the next scalar value there, the step moves to offset `n` plus `c`'s
UTF-8 width; (ii) each such step increments the step counter by exactly one;
(iii) but a complete string met at entry is reported with its UTF-8 byte
length (`s.len()`), not its scalar-value count; (iv) the two only coincide
for ASCII blocks (every scalar value of width one), where the claim's
reading holds.  (The complete-string stepping arm, reached through a list
tail, reads the first scalar value of the whole buffer rather than of the
suffix at the current offset, so there the advance is by one scalar value
only when the buffer's scalar values all have the first one's width.) -/
theorem c2_string_step_semantics :
    (∀ (M : MachineState) (st : BrentAlgState) (h n : Nat) (s : List Char)
        (c : Char) (rest : List Char),
      M.resolve st.hare = .PStrLocation h n →
      M.heap[h]? = some (.PartialString s) →
      dropBytes n s = c :: rest →
      M.brents_alg_step st = ofStep (st.step (.PStrLocation h (n + c.utf8Size)))) ∧
    (∀ (st : BrentAlgState) (x : Addr),
      ((st.step x).2).steps = st.steps + 1 ∧ ((st.step x).2).hare = x) ∧
    (∀ (M : MachineState) (a : Addr) (s : List Char) (fuel : Nat),
      M.resolve a = .Con (.String 0 s) → M.doubleQuotesIsAtom = false →
      (M.detect_cycles fuel a).result = some (.CompleteString (utf8Len s) s)) ∧
    (∀ s : List Char, (∀ c ∈ s, c.utf8Size = 1) → utf8Len s = s.length) := by
  refine ⟨?_, ?_, ?_, ?_⟩
  · intro M st h n s c rest hres hheap hdrop
    simp only [MachineState.brents_alg_step, hres, hheap, hdrop, List.head?]
  · intro st x
    simp only [BrentAlgState.step, conclude_or_move_tortoise]
    split_ifs <;> simp
  · intro M a s fuel hres hflag
    simp [MachineState.detect_cycles, hres, hflag, WalkRes.result]
  · intro s hascii
    induction s with
    | nil => rfl
    | cons c cs ih =>
      have hc : c.utf8Size = 1 := hascii c (List.mem_cons_self c cs)
      have ih' := ih fun d hd => hascii d (List.mem_cons_of_mem c hd)
      simp [utf8Len, List.length_cons] at *
      omega

/-- Witness for C2: one partial-string step over the block "ab" from offset
0 advances to offset 1 (the width of 'a') with step counter 1; a complete
ASCII string "ab" is reported with length 2, its scalar count. -/
theorem c2_string_step_semantics_witness :
    (MpstrW.brents_alg_step (BrentAlgState.new (.PStrLocation 0 0)) =
      ofStep ((BrentAlgState.new (.PStrLocation 0 0)).step
        (.PStrLocation 0 (0 + Char.utf8Size 'a')))) ∧
    (((BrentAlgState.new (.Lis 0)).step (.HeapCell 1)).2.steps = 0 + 1 ∧
      ((BrentAlgState.new (.Lis 0)).step (.HeapCell 1)).2.hare = .HeapCell 1) ∧
    ((baseMachine.detect_cycles 1 (.Con (.String 0 ['a', 'b']))).result =
      some (.CompleteString (utf8Len ['a', 'b']) ['a', 'b'])) ∧
    (utf8Len ['a', 'b'] = (['a', 'b'] : List Char).length) := by
  refine ⟨?_, ?_, ?_, ?_⟩
  · exact c2_string_step_semantics.1 MpstrW (BrentAlgState.new (.PStrLocation 0 0))
      0 0 ['a', 'b'] 'a' ['b'] (by decide) (by decide) (by decide)
  · exact c2_string_step_semantics.2.1 (BrentAlgState.new (.Lis 0)) (.HeapCell 1)
  · exact c2_string_step_semantics.2.2.1 baseMachine (.Con (.String 0 ['a', 'b']))
      ['a', 'b'] 1 (by decide) (by decide)
  · exact c2_string_step_semantics.2.2.2 ['a', 'b'] (by decide)

/-- C2, counterexample to the claim as stated: the complete string "é" has
one scalar value but occupies two bytes; the walker reports it with length
2 — the byte count, not the scalar-value count. -/
theorem c2_bytes_not_scalars_counterexample :
    (baseMachine.detect_cycles 1 (.Con (.String 0 ['é']))).result =
      some (.CompleteString 2 ['é']) ∧
    (['é'] : List Char).length = 1 ∧ (2 : Nat) ≠ 1 := by
  decide

/-- The partial list `[1,2,3|T]`: cons cells at 0, 2, 4; `T` is the unbound
cell 5; cell 6 is the unbound length register value, cell 7 the unbound
residue register value; registers as `'$skip_max_list'(N, 2, [1,2,3|T], Xs)`
binds them. -/
def Mpartial3 : MachineState :=
  { baseMachine with
    heap := [.Addr (.Con (.Integer 1)), .Addr (.Lis 2),
             .Addr (.Con (.Integer 2)), .Addr (.Lis 4),
             .Addr (.Con (.Integer 3)), .Addr (.HeapCell 5),
             .Addr (.HeapCell 6), .Addr (.HeapCell 7)],
    regs := fun i =>
      match i with
      | 1 => .HeapCell 6
      | 2 => .Con (.Integer 2)
      | 3 => .Lis 0
      | 4 => .HeapCell 7
      | _ => .Con .EmptyList }

/-- C3, amended.  On `[1,2,3|T]` with budget 2 the walker reports the
partial-list outcome with step count 2, and the remaining address is the
second cons cell's tail cell (heap cell 3), which is bound to the remainder
`[3|T]` — not the unbound `T` (heap cell 5, reached only with budget 3).
`skip_max_list` accordingly unifies its length argument with 2 and its
residue argument with `[3|T]`, returning normally with the failure flag
clear. -/
theorem c3_skip_two_of_three :
    (Mpartial3.detect_cycles_with_max 6 2 (.Lis 0)).result =
      some (.PartialList 2 (.HeapCell 3)) ∧
    Mpartial3.resolve (.HeapCell 3) = .Lis 4 ∧
    ((Mpartial3.skip_max_list 9).okState.map (fun M' => M'.resolve (.HeapCell 6))) =
      some (.Con (.Integer 2)) ∧
    ((Mpartial3.skip_max_list 9).okState.map (fun M' => M'.resolve (.HeapCell 7))) =
      some (.Lis 4) ∧
    ((Mpartial3.skip_max_list 9).okState.map MachineState.fail) = some false ∧
    (Mpartial3.detect_cycles_with_max 6 3 (.Lis 0)).result =
      some (.PartialList 3 (.HeapCell 5)) := by
  refine ⟨by decide, by decide, ?_, ?_, ?_, by decide⟩ <;> decide

/-- C3, counterexample to the claim as stated: the remaining address the
budget-2 walk reports is heap cell 3, not `T`'s cell 5; cell 3 is bound to
the cons `[3|T]` while `T` (cell 5) is the unbound variable. -/
theorem c3_residue_counterexample :
    (Mpartial3.detect_cycles_with_max 6 2 (.Lis 0)).result =
      some (.PartialList 2 (.HeapCell 3)) ∧
    (Ref.HeapCell 3 ≠ Ref.HeapCell 5) ∧
    Mpartial3.resolve (.HeapCell 5) = .HeapCell 5 ∧
    Mpartial3.resolve (.HeapCell 3) = .Lis 4 := by
  decide

theorem skipMaxGate_neg {z : Int} (hz : z < -1) : skipMaxGate z = false := by
  unfold skipMaxGate toIsize
  split_ifs with h
  · simp only [decide_eq_false_iff_not]
    omega
  · rfl

/-- C6, amended.  `skip_max_list` never panics on its argument-validation
paths: a max-steps register dereferencing to an unbound heap or stack cell
returns the structured instantiation error with the state untouched; any
other non-integer — including an attributed variable, which is unbound but
falls through to the catch-all arm — returns the structured type error
naming the offending address; and an integer below `-1` (like any integer
outside the machine-word range) sets the failure flag and returns normally.
In each case the operation returns a value; no panic outcome is reachable
from these paths. -/
theorem c6_skip_max_errors (M : MachineState) (fuel : Nat) :
    (∀ h, M.resolve (M.regs 2) = .HeapCell h →
      M.skip_max_list fuel = .err .instantiationErr M) ∧
    (∀ fr sc, M.resolve (M.regs 2) = .StackCell fr sc →
      M.skip_max_list fuel = .err .instantiationErr M) ∧
    (∀ na, M.resolve (M.regs 2) = na → skipMaxCatchArm na = true →
      M.skip_max_list fuel = .err (.typeErr na) M) ∧
    (∀ z, M.resolve (M.regs 2) = .Con (.Integer z) → z < -1 →
      M.skip_max_list fuel = .ok { M with fail := true }) := by
  refine ⟨?_, ?_, ?_, ?_⟩
  · intro h hres
    simp [MachineState.skip_max_list, hres]
  · intro fr sc hres
    simp [MachineState.skip_max_list, hres]
  · intro na hres hcatch
    cases na with
    | HeapCell h => simp [skipMaxCatchArm] at hcatch
    | StackCell fr sc => simp [skipMaxCatchArm] at hcatch
    | AttrVar h => simp [MachineState.skip_max_list, hres]
    | Lis l => simp [MachineState.skip_max_list, hres]
    | Str s => simp [MachineState.skip_max_list, hres]
    | PStrLocation h n => simp [MachineState.skip_max_list, hres]
    | Con c =>
      cases c with
      | Integer z => simp [skipMaxCatchArm] at hcatch
      | EmptyList => simp [MachineState.skip_max_list, hres]
      | Usize n => simp [MachineState.skip_max_list, hres]
      | CutPoint n => simp [MachineState.skip_max_list, hres]
      | Atom s => simp [MachineState.skip_max_list, hres]
      | Char ch => simp [MachineState.skip_max_list, hres]
      | String n s => simp [MachineState.skip_max_list, hres]
  · intro z hres hz
    simp [MachineState.skip_max_list, hres, skipMaxGate_neg hz]

/-- Max-steps register dereferencing to an unbound heap variable. -/
def Mvar2 : MachineState :=
  { baseMachine with heap := [.Addr (.HeapCell 0)], regs := fun _ => .HeapCell 0 }

/-- Max-steps register dereferencing to an atom. -/
def Matom2 : MachineState :=
  { baseMachine with regs := fun _ => .Con (.Atom "a") }

/-- Max-steps register dereferencing to the integer `-5`. -/
def Mneg2 : MachineState :=
  { baseMachine with regs := fun _ => .Con (.Integer (-5)) }

/-- Witness for C6: an unbound max-steps register yields the instantiation
error, an atom yields the type error naming it, and `-5` fails normally. -/
theorem c6_skip_max_errors_witness :
    Mvar2.skip_max_list 3 = .err .instantiationErr Mvar2 ∧
    Matom2.skip_max_list 3 = .err (.typeErr (.Con (.Atom "a"))) Matom2 ∧
    Mneg2.skip_max_list 3 = .ok { Mneg2 with fail := true } := by
  refine ⟨(c6_skip_max_errors Mvar2 3).1 0 (by decide), ?_, ?_⟩
  · exact (c6_skip_max_errors Matom2 3).2.2.1 (.Con (.Atom "a")) (by decide) (by decide)
  · exact (c6_skip_max_errors Mneg2 3).2.2.2 (-5) (by decide) (by decide)

/-- Max-steps register dereferencing to an unbound attributed variable. -/
def Mattr2 : MachineState :=
  { baseMachine with heap := [.Addr (.AttrVar 0)], regs := fun _ => .AttrVar 0 }

/-- C6, counterexample to the claim as stated: an attributed variable is an
unbound variable, yet `skip_max_list` returns the type error for it, not
the instantiation error — the instantiation arm matches only plain heap and
stack cells. -/
theorem c6_attrvar_counterexample :
    Mattr2.skip_max_list 3 = .err (.typeErr (.AttrVar 0)) Mattr2 ∧
    MachineErr.typeErr (.AttrVar 0) ≠ .instantiationErr := by
  exact ⟨rfl, by decide⟩

theorem store_set_queue (M : MachineState) (q : List Nat) (a : Addr) :
    ({ M with attr_var_queue := q } : MachineState).store a = M.store a := by
  cases a <;> rfl

theorem derefF_set_queue (M : MachineState) (q : List Nat) :
    ∀ (n : Nat) (a : Addr),
      ({ M with attr_var_queue := q } : MachineState).derefF n a = M.derefF n a := by
  intro n
  induction n with
  | zero => intro a; rfl
  | succ m ih =>
    intro a
    simp only [MachineState.derefF, store_set_queue]
    split_ifs <;> simp [ih]

theorem resolve_set_queue (M : MachineState) (q : List Nat) (a : Addr) :
    ({ M with attr_var_queue := q } : MachineState).resolve a = M.resolve a := by
  unfold MachineState.resolve
  rw [show ({ M with attr_var_queue := q } : MachineState).heap = M.heap from rfl,
    derefF_set_queue, store_set_queue]

theorem enqueue_attrvar_eq {M : MachineState} {a : Addr} {h : Nat}
    (hres : M.resolve a = .AttrVar h) :
    M.enqueueAttributedVar a = { M with attr_var_queue := M.attr_var_queue ++ [h] } := by
  simp [MachineState.enqueueAttributedVar, hres]

theorem enqueue_fold_queue :
    ∀ (hs : List Nat) (M : MachineState),
      (∀ h ∈ hs, M.resolve (.AttrVar h) = .AttrVar h) →
      (hs.foldl (fun m h => m.enqueueAttributedVar (.AttrVar h)) M).attr_var_queue =
        M.attr_var_queue ++ hs := by
  intro hs
  induction hs with
  | nil => intro M _; simp
  | cons h0 rest ih =>
    intro M hvars
    have h0res : M.resolve (.AttrVar h0) = .AttrVar h0 :=
      hvars h0 (List.mem_cons_self h0 rest)
    have hstep := enqueue_attrvar_eq h0res
    simp only [List.foldl_cons, hstep]
    rw [ih { M with attr_var_queue := M.attr_var_queue ++ [h0] }
      (fun h hm => by rw [resolve_set_queue]; exact hvars h (List.mem_cons_of_mem h0 hm))]
    simp

/-- C7 (spec-modelled for `gather_attr_vars_created_since`).  Reading the
queue delimiter (the current queue length) and immediately querying beyond
it yields the empty list; and after enqueueing `N` addresses that
dereference to attributed variables `hs`, querying beyond that same
delimiter yields exactly those `N` attributed-variable addresses in the
order they were enqueued. -/
theorem c7_ledger_beyond (M : MachineState) (hs : List Nat)
    (hvars : ∀ h ∈ hs, M.resolve (.AttrVar h) = .AttrVar h) :
    M.gather_attr_vars_created_since M.attrVarQueueDelimiter = [] ∧
    MachineState.gather_attr_vars_created_since
        (hs.foldl (fun m h => m.enqueueAttributedVar (.AttrVar h)) M)
        M.attrVarQueueDelimiter = hs.map Addr.AttrVar := by
  constructor
  · simp [MachineState.gather_attr_vars_created_since, MachineState.attrVarQueueDelimiter,
      List.drop_length]
  · simp only [MachineState.gather_attr_vars_created_since]
    rw [enqueue_fold_queue hs M hvars]
    simp [MachineState.attrVarQueueDelimiter, List.drop_left]

/-- A machine with two unbound attributed variables at heap cells 0 and 1. -/
def MattrQ : MachineState :=
  { baseMachine with heap := [.Addr (.AttrVar 0), .Addr (.AttrVar 1)] }

/-- Witness for C7: with attributed variables at cells 0 and 1, the query
beyond the delimiter is empty before enqueueing and `[AttrVar 0, AttrVar 1]`
after enqueueing both, in order. -/
theorem c7_ledger_beyond_witness :
    MattrQ.gather_attr_vars_created_since MattrQ.attrVarQueueDelimiter = [] ∧
    MachineState.gather_attr_vars_created_since
        (([0, 1] : List Nat).foldl
          (fun m h => m.enqueueAttributedVar (.AttrVar h)) MattrQ)
        MattrQ.attrVarQueueDelimiter = [.AttrVar 0, .AttrVar 1] := by
  exact c7_ledger_beyond MattrQ [0, 1]
    (by
      intro h hm
      simp only [List.mem_cons, List.not_mem_nil, or_false] at hm
      rcases hm with rfl | rfl <;> decide)

theorem dedupFrom_chain (cmp : Addr → Addr → Ordering)
    (hcompat : ∀ a b c, cmp a b = .eq → cmp a c = cmp b c) :
    ∀ (l : List Addr) (x : Addr),
      List.Chain' (fun a b => cmp a b ≠ .gt) (x :: l) →
      List.Chain (fun a b => cmp a b = .lt) x (dedupFrom cmp x l) := by
  intro l
  induction l with
  | nil => intro x _; exact List.Chain.nil
  | cons y ys ih =>
    intro x hch
    have hxy : cmp x y ≠ .gt := (List.chain'_cons.mp hch).1
    have hch' : List.Chain' (fun a b => cmp a b ≠ .gt) (y :: ys) :=
      (List.chain'_cons.mp hch).2
    by_cases heq : cmp x y = .eq
    · rw [dedupFrom, if_pos heq]
      apply ih x
      -- transport the chain head from y to the comparator-equal x
      cases ys with
      | nil => exact List.chain'_singleton x
      | cons z zs =>
        refine List.chain'_cons.mpr ⟨?_, (List.chain'_cons.mp hch').2⟩
        rw [hcompat x y z heq]
        exact (List.chain'_cons.mp hch').1
    · have hlt : cmp x y = .lt := by
        cases hxyv : cmp x y
        · rfl
        · exact absurd hxyv heq
        · exact absurd hxyv hxy
      rw [dedupFrom, if_neg heq]
      exact List.Chain.cons hlt (ih y hch')

/-- C8 (spec-modelled for `compare_term_test`, `term_dedup` and the
standard-library sort).  For every comparator that is a total order
(transitive strict part, reflexively equal, antisymmetric between `gt` and
`lt`, with comparator-equality a congruence in each argument), the list
`fetch_attribute_goals` builds — the accumulated goals sorted by the
comparator and then deduplicated — is strictly ascending pairwise under the
comparator (hence sorted) and contains no exact duplicates. -/
theorem c8_fetch_goals_sorted_dedup (cmp : Addr → Addr → Ordering)
    (hanti : ∀ a b, cmp a b = .gt → cmp b a = .lt)
    (htrans : ∀ a b c, cmp a b = .lt → cmp b c = .lt → cmp a c = .lt)
    (hrefl : ∀ a, cmp a a = .eq)
    (hcompatL : ∀ a b c, cmp a b = .eq → cmp a c = cmp b c)
    (hcompatR : ∀ a b c, cmp b c = .eq → cmp a b = cmp a c)
    (attr_goals : List Addr) :
    List.Pairwise (fun a b => cmp a b = .lt) (fetch_attribute_goals_list cmp attr_goals) ∧
    (fetch_attribute_goals_list cmp attr_goals).Nodup := by
  have hlt_ne : ∀ {a b : Addr}, cmp a b = .lt → a ≠ b := by
    intro a b hab he
    subst he
    rw [hrefl a] at hab
    cases hab
  haveI htot : IsTotal Addr (fun a b => cmp a b ≠ .gt) := by
    constructor
    intro a b
    by_cases hab : cmp a b = .gt
    · right
      rw [hanti a b hab]
      intro hc
      cases hc
    · left; exact hab
  haveI htrr : IsTrans Addr (fun a b => cmp a b ≠ .gt) := by
    constructor
    intro a b c hab hbc
    cases habv : cmp a b with
    | gt => exact absurd habv hab
    | eq => rw [hcompatL a b c habv]; exact hbc
    | lt =>
      cases hbcv : cmp b c with
      | gt => exact absurd hbcv hbc
      | eq => rw [← hcompatR a b c hbcv, habv]; intro hc; cases hc
      | lt => rw [htrans a b c habv hbcv]; intro hc; cases hc
  haveI httr : IsTrans Addr (fun a b => cmp a b = .lt) := ⟨htrans⟩
  have hsorted : List.Sorted (fun a b => cmp a b ≠ .gt) (sortByCmp cmp attr_goals) :=
    List.sorted_insertionSort _ attr_goals
  have hpair :
      List.Pairwise (fun a b => cmp a b = .lt) (fetch_attribute_goals_list cmp attr_goals) := by
    unfold fetch_attribute_goals_list
    cases hs : sortByCmp cmp attr_goals with
    | nil => simp [term_dedup]
    | cons x xs =>
      rw [term_dedup]
      rw [← List.chain_iff_pairwise]
      apply dedupFrom_chain cmp hcompatL
      rw [hs] at hsorted
      exact hsorted.chain'
  exact ⟨hpair, hpair.imp fun hab => hlt_ne hab⟩

/-- A comparator induced by a numeric key. -/
def cmpByKey (f : Addr → Nat) (a b : Addr) : Ordering :=
  if f a < f b then .lt else if f b < f a then .gt else .eq

theorem cmpByKey_anti (f : Addr → Nat) :
    ∀ a b, cmpByKey f a b = .gt → cmpByKey f b a = .lt := by
  intro a b
  unfold cmpByKey
  split_ifs <;> simp_all

theorem cmpByKey_trans (f : Addr → Nat) :
    ∀ a b c, cmpByKey f a b = .lt → cmpByKey f b c = .lt → cmpByKey f a c = .lt := by
  intro a b c
  unfold cmpByKey
  split_ifs <;> simp_all <;> omega

theorem cmpByKey_refl (f : Addr → Nat) : ∀ a, cmpByKey f a a = .eq := by
  intro a
  unfold cmpByKey
  split_ifs <;> simp_all

theorem cmpByKey_compatL (f : Addr → Nat) :
    ∀ a b c, cmpByKey f a b = .eq → cmpByKey f a c = cmpByKey f b c := by
  intro a b c
  unfold cmpByKey
  split_ifs <;> simp_all <;> omega

theorem cmpByKey_compatR (f : Addr → Nat) :
    ∀ a b c, cmpByKey f b c = .eq → cmpByKey f a b = cmpByKey f a c := by
  intro a b c
  unfold cmpByKey
  split_ifs <;> simp_all <;> omega

/-- The heap-index key used by the C8 witness comparator. -/
def heapKey : Addr → Nat
  | .HeapCell i => i
  | _ => 0

/-- Witness for C8: sorting and deduplicating the goal list
`[HeapCell 2, HeapCell 1, HeapCell 2]` under the heap-index comparator
yields a strictly ascending, duplicate-free list. -/
theorem c8_fetch_goals_sorted_dedup_witness :
    List.Pairwise (fun a b => cmpByKey heapKey a b = .lt)
      (fetch_attribute_goals_list (cmpByKey heapKey)
        [.HeapCell 2, .HeapCell 1, .HeapCell 2]) ∧
    (fetch_attribute_goals_list (cmpByKey heapKey)
      [.HeapCell 2, .HeapCell 1, .HeapCell 2]).Nodup :=
  c8_fetch_goals_sorted_dedup (cmpByKey heapKey)
    (cmpByKey_anti heapKey) (cmpByKey_trans heapKey) (cmpByKey_refl heapKey)
    (cmpByKey_compatL heapKey) (cmpByKey_compatR heapKey)
    [.HeapCell 2, .HeapCell 1, .HeapCell 2]

/-- C9.  `CheckCutPoint`, given a register resolving to a saved barrier
value (`Usize` or `CutPoint`), reports failure exactly when the choice
point reached by following the current choice point's predecessor link
twice is more recent (a larger stack address) than the saved barrier —
i.e. a choice point senior to the barrier still exists below the previous
barrier. -/
theorem c9_check_cut_point (M : MachineState) (old_b : Nat)
    (hfail : M.fail = false)
    (hres : M.resolve (M.regs 1) = .Con (.Usize old_b) ∨
      M.resolve (M.regs 1) = .Con (.CutPoint old_b)) :
    ((M.checkCutPoint).fail = true ↔
      old_b < M.stackPreludeB (M.stackPreludeB M.b)) := by
  rcases hres with hres | hres <;>
    · simp only [MachineState.checkCutPoint, hres]
      split_ifs with hlt
      · simp [hlt]
      · simp [hfail, hlt]

/-- A machine whose barrier register holds `Usize 2`, with predecessor
links subtracting one from a current choice point at 5: the twice-previous
choice point 3 is more recent than the saved barrier 2. -/
def McutW : MachineState :=
  { baseMachine with
    b := 5,
    stackPreludeB := fun n => n - 1,
    regs := fun _ => .Con (.Usize 2) }

/-- Witness for C9: on `McutW` the check fails, and indeed `2 < 3`. -/
theorem c9_check_cut_point_witness :
    (McutW.checkCutPoint).fail = true ↔
      2 < McutW.stackPreludeB (McutW.stackPreludeB McutW.b) :=
  c9_check_cut_point McutW 2 (by decide) (Or.inl (by decide))

/-- C10.  Enqueueing an address that does not dereference to an attributed
variable is a silent no-op: the returned machine is the input machine
itself — same queue, same failure flag, and (the operation's arm returns
unit within the `Ok` flow) no error. -/
theorem c10_enqueue_noop (M : MachineState) (a : Addr)
    (h : ∀ hh, M.resolve a ≠ .AttrVar hh) :
    M.enqueueAttributedVar a = M := by
  unfold MachineState.enqueueAttributedVar
  cases hres : M.resolve a with
  | AttrVar hh => exact absurd hres (h hh)
  | HeapCell _ => rfl
  | StackCell _ _ => rfl
  | Lis _ => rfl
  | Str _ => rfl
  | PStrLocation _ _ => rfl
  | Con _ => rfl

/-- Witness for C10: enqueueing the empty-list constant leaves the machine
unchanged. -/
theorem c10_enqueue_noop_witness :
    baseMachine.enqueueAttributedVar (.Con .EmptyList) = baseMachine :=
  c10_enqueue_noop baseMachine (.Con .EmptyList)
    (fun hh hc => by
      rw [show baseMachine.resolve (.Con .EmptyList) = .Con .EmptyList from rfl] at hc
      cases hc)
